import Mathlib

/-!
Verification of the lab-4 "vector search with clusterization" module
(`src/lab_4_retrieval_w_clustering/main.py`): a shallow embedding of
`DocumentVectorDB`, `ClusterDTO`, `KMeans` and `ClusteringSearchEngine`
over exact rationals, with the collaborator capabilities of the other
labs (tokenizer, vectorizer, distance) taken as parameters or modelled
from the spec.  Python floats are modelled as `ℚ`; a Python `ValueError`
or `IndexError` is an `Except.error`; a Python `dict[int, Vector]` is an
insertion-ordered association list.
-/

set_option allowUnsafeReducibility true
attribute [semireducible] Rat.add Rat.sub Rat.mul Rat.inv

instance {ε α : Type} [DecidableEq ε] [DecidableEq α] : DecidableEq (Except ε α) := fun a b =>
  match a, b with
  | .ok x, .ok y => decidable_of_iff (x = y) (by simp)
  | .ok _, .error _ => isFalse (by simp)
  | .error _, .ok _ => isFalse (by simp)
  | .error e, .error f => decidable_of_iff (e = f) (by simp)

/-- A document vector: a fixed-length ordered sequence of scores. -/
abbrev Vec := List ℚ

/-- Modelled from the spec: the distance capability consumed from the
`lab_3_ann_retriever` collaborator, whose code is not under `src/`.  The spec
describes it as a map from two equal-length numeric vectors to a non-negative
scalar, undefined on shape mismatch.  It is modelled as the squared Euclidean
distance over exact rationals: non-negative, zero exactly on equal vectors,
and ordering any two distances from a common query exactly as the Euclidean
distance does. -/
def calculate_distance (a b : Vec) : Option ℚ :=
  if a.length = b.length then
    some (((a.zip b).map (fun p => (p.1 - p.2) * (p.1 - p.2))).sum)
  else none

/-- Strict lexicographic order on (distance, index) pairs, as Python compares
tuples in `min`. -/
def lexLt (a b : ℚ × ℕ) : Prop :=
  a.1 < b.1 ∨ (a.1 = b.1 ∧ a.2 < b.2)

/-- Reflexive lexicographic order on (distance, index) pairs. -/
def lexLe (a b : ℚ × ℕ) : Prop :=
  a.1 < b.1 ∨ (a.1 = b.1 ∧ a.2 ≤ b.2)

instance (a b : ℚ × ℕ) : Decidable (lexLt a b) := by
  unfold lexLt; infer_instance

instance (a b : ℚ × ℕ) : Decidable (lexLe a b) := by
  unfold lexLe; infer_instance

/-- The fold of Python's `min` over a nonempty list: the running best is
replaced only by a strictly smaller element, so the first minimum wins. -/
def pyMinFold (x : ℚ × ℕ) (l : List (ℚ × ℕ)) : ℚ × ℕ :=
  l.foldl (fun acc y => if lexLt y acc then y else acc) x

/-- Python's `min` over a list of (distance, index) tuples; `none` models the
`ValueError` on an empty sequence. -/
def pyMin : List (ℚ × ℕ) → Option (ℚ × ℕ)
  | [] => none
  | x :: xs => some (pyMinFold x xs)

/-- Python's `list.index`: the position of the first occurrence of `a` in `l`
(`l.length` when absent, a case the source never reaches). -/
def idxOfFirst {α : Type} [DecidableEq α] : List α → α → ℕ
  | [], _ => 0
  | x :: xs, a => if x = a then 0 else idxOfFirst xs a + 1

/-- One cluster: a centroid vector and the member document indices, in
insertion order. -/
structure ClusterDTO where
  centroid : Vec
  indices : List ℕ
deriving DecidableEq

/-- `ClusterDTO.set_new_centroid`: rejects an empty replacement vector with a
`ValueError` (the non-tuple branch of the source check is a Python type error
outside the embedding). -/
def ClusterDTO.set_new_centroid (c : ClusterDTO) (v : Vec) : Except String ClusterDTO :=
  if v = [] then .error "Invalid input argument"
  else .ok { c with centroid := v }

/-- `ClusterDTO.erase_indices`: membership is cleared, the centroid kept. -/
def ClusterDTO.erase_indices (c : ClusterDTO) : ClusterDTO :=
  { c with indices := [] }

/-- `ClusterDTO.add_document_index`: a no-op on a duplicate, an append
otherwise.  The source's negative-index `ValueError` cannot fire for `ℕ`. -/
def ClusterDTO.add_document_index (c : ClusterDTO) (i : ℕ) : ClusterDTO :=
  if i ∈ c.indices then c else { c with indices := c.indices ++ [i] }

/-- The document and vector database: the index-to-vector mapping as an
insertion-ordered association list and the raw documents in index order. -/
structure DocumentVectorDB where
  vectors : List (ℕ × Vec)
  documents : List String
deriving DecidableEq

/-- `DocumentVectorDB.get_vectors`: the source tests `not indices`, so both
`None` and the empty list select every stored (index, vector) pair; otherwise
the pairs whose index is in the filter, in storage order. -/
def DocumentVectorDB.get_vectors (db : DocumentVectorDB) (indices : Option (List ℕ)) :
    List (ℕ × Vec) :=
  match indices with
  | none => db.vectors
  | some l => if l = [] then db.vectors else db.vectors.filter (fun p => p.1 ∈ l)

/-- The deduplication loop of `get_raw_documents`: each index is kept at its
first occurrence and dropped afterwards. -/
def dedupFirstAux (seen : List ℕ) : List ℕ → List ℕ
  | [] => []
  | i :: rest =>
    if i ∈ seen then dedupFirstAux seen rest
    else i :: dedupFirstAux (seen ++ [i]) rest

/-- First-occurrence deduplication, as the `unique_indices` loop builds it. -/
def dedupFirst (l : List ℕ) : List ℕ :=
  dedupFirstAux [] l

/-- `DocumentVectorDB.get_raw_documents`: `not indices` again sends `None` and
the empty tuple to the full document list; otherwise the documents at the
deduplicated filter indices, an out-of-range index being an `IndexError`. -/
def DocumentVectorDB.get_raw_documents (db : DocumentVectorDB) (indices : Option (List ℕ)) :
    Except String (List String) :=
  match indices with
  | none => .ok db.documents
  | some l =>
    if l = [] then .ok db.documents
    else
      (dedupFirst l).mapM (fun i =>
        match db.documents[i]? with
        | some d => Except.ok d
        | none => Except.error "IndexError")

/-- The vector-building dict comprehension of `put_corpus`: each tokenized
document is vectorized in order, keyed by its position among the kept
documents; a document whose vector is empty is skipped (a gap), and a
vectorization failure aborts the ingestion. -/
def buildVectors (vectorize : List String → Except String Vec) :
    ℕ → List (List String) → Except String (List (ℕ × Vec))
  | _, [] => .ok []
  | i, d :: rest => do
    let v ← vectorize d
    let tail ← buildVectors vectorize (i + 1) rest
    if v = [] then .ok tail else .ok ((i, v) :: tail)

/-- `DocumentVectorDB.put_corpus`, parameterized by the collaborator
capabilities the spec lists as consumed: `tokenize` (an empty token list
models both a failed and an empty tokenization, and drops the document) and
`vectorize` (the BM25 vectorizer after its corpus-fitting step, raising as an
`Except.error`).  Kept raw texts are appended to the document list; vectors
are rebuilt keyed by position among the kept documents. -/
def DocumentVectorDB.put_corpus (tokenize : String → List String)
    (vectorize : List String → Except String Vec)
    (db : DocumentVectorDB) (corpus : List String) : Except String DocumentVectorDB :=
  if corpus = [] then .error "Invalid input argument"
  else
    let kept := corpus.filter (fun d => !(tokenize d).isEmpty)
    let tokenized := kept.map tokenize
    if tokenized = [] then .error "Tokenized documents are either None or empty"
    else do
      let vs ← buildVectors vectorize 0 tokenized
      .ok { vectors := vs, documents := db.documents ++ kept }

/-- The k-means trainer state: the owned cluster list, the shared database and
the requested cluster count. -/
structure KMeans where
  clusters : List ClusterDTO
  db : DocumentVectorDB
  n_clusters : ℕ
deriving DecidableEq

/-- The per-vector distance loop of `run_single_train_iteration`: the distance
of `v` to each centroid, paired with `centroids.index(centroid)` — the first
position holding that centroid value.  An undefined distance is the source's
`ValueError`. -/
def computeDistancesAux (centroids : List Vec) (v : Vec) :
    List Vec → Except String (List (ℚ × ℕ))
  | [] => .ok []
  | c :: rest =>
    match calculate_distance v c with
    | none => .error "Failed to calculate distance between vector and centroid"
    | some d => do
      let tail ← computeDistancesAux centroids v rest
      .ok ((d, idxOfFirst centroids c) :: tail)

/-- The cluster chosen for one vector: `min(distances)[1]`. -/
def assignCluster (centroids : List Vec) (v : Vec) : Except String ℕ := do
  let ds ← computeDistancesAux centroids v centroids
  match pyMin ds with
  | none => .error "min arg is an empty sequence"
  | some m => .ok m.2

/-- The assignment loop of `run_single_train_iteration`: every stored vector's
position (`vectors.index(vector)`, the first occurrence of the pair) is added
to its chosen cluster; the centroid snapshot is fixed before the loop. -/
def assignLoop (centroids : List Vec) (allVectors : List (ℕ × Vec)) :
    List (ℕ × Vec) → List ClusterDTO → Except String (List ClusterDTO)
  | [], clusters => .ok clusters
  | p :: rest, clusters => do
    let j ← assignCluster centroids p.2
    match clusters[j]? with
    | none => .error "IndexError"
    | some c =>
      assignLoop centroids allVectors rest
        (clusters.set j (c.add_document_index (idxOfFirst allVectors p)))

/-- Python's `zip(*cluster_vectors)`: the rows of the transpose, truncated to
the shortest vector; `zip()` of no vectors is empty.  The first vector's
length bounds the row count, so it serves as structural fuel. -/
def zipStarGo : ℕ → List Vec → List (List ℚ)
  | 0, _ => []
  | _, [] => []
  | n + 1, vs =>
    if vs.any (fun v => v.isEmpty) then []
    else vs.map (fun v => v.headI) :: zipStarGo n (vs.map (fun v => v.tail))

/-- Python's `zip(*vs)` as a list of rows. -/
def zipStar (vs : List Vec) : List (List ℚ) :=
  zipStarGo (vs.headD []).length vs

/-- `tuple(sum(scores) / len(scores) for scores in zip(*cluster_vectors))`:
the coordinate-wise arithmetic mean; the empty tuple when there are no member
vectors. -/
def meanCentroid (vs : List Vec) : Vec :=
  (zipStar vs).map (fun row => row.sum / (row.length : ℚ))

/-- The centroid-update loop of `run_single_train_iteration`: each cluster's
member vectors are collected by position (`vectors[ind][1]`, an out-of-range
position being an `IndexError`) and the mean becomes the new centroid through
`set_new_centroid`, which rejects an empty mean. -/
def updateCentroids (vectors : List (ℕ × Vec)) :
    List ClusterDTO → Except String (List ClusterDTO)
  | [] => .ok []
  | c :: rest => do
    let cvs ← c.indices.mapM (fun i =>
      match vectors[i]? with
      | some p => Except.ok p.2
      | none => Except.error "IndexError")
    let c' ← c.set_new_centroid (meanCentroid cvs)
    let rest' ← updateCentroids vectors rest
    .ok (c' :: rest')

/-- `KMeans.run_single_train_iteration`: centroids are snapshotted and the
memberships erased, every stored vector is assigned to its closest cluster,
then every centroid is recomputed as the member mean. -/
def KMeans.run_single_train_iteration (km : KMeans) : Except String KMeans := do
  let centroids := km.clusters.map ClusterDTO.centroid
  let erased := km.clusters.map ClusterDTO.erase_indices
  let vectors := km.db.get_vectors none
  let assigned ← assignLoop centroids vectors vectors erased
  let updated ← updateCentroids vectors assigned
  .ok { km with clusters := updated }

/-- The comparison loop of the convergence check: old and new centroids are
zipped in list order; the first distance over the threshold answers `False`
at once, an undefined distance raises, and an exhausted list answers `True`. -/
def convergenceLoop (threshold : ℚ) : List (Vec × Vec) → Except String Bool
  | [] => .ok true
  | pr :: rest =>
    match calculate_distance pr.1 pr.2 with
    | none => .error "Failed to calculate distance"
    | some d => if d > threshold then .ok false else convergenceLoop threshold rest

/-- `KMeans._is_convergence_reached`: an empty new-cluster list is a
`ValueError`, and so is a zero threshold (`not threshold` on a float); the
non-float branch of the source check is a Python type error outside the
embedding. -/
def KMeans.is_convergence_reached (km : KMeans) (new_clusters : List ClusterDTO)
    (threshold : ℚ) : Except String Bool :=
  if new_clusters = [] ∨ threshold = 0 then .error "Invalid input argument"
  else
    convergenceLoop threshold
      ((km.clusters.map ClusterDTO.centroid).zip (new_clusters.map ClusterDTO.centroid))

/-- The default convergence threshold of the source, `1e-07`. -/
def defaultThreshold : ℚ := 1 / 10000000

/-- The `while True` training loop.  The source has no iteration cap; the
`fuel` argument makes the recursion total, and the convergence check is
called — as in the source — on the very cluster list the iteration just
mutated, so its distances compare each centroid with itself. -/
def KMeans.trainLoop : ℕ → KMeans → Except String KMeans
  | 0, _ => .error "out of fuel"
  | fuel + 1, km => do
    let km' ← km.run_single_train_iteration
    let conv ← km'.is_convergence_reached km'.clusters defaultThreshold
    if conv then .ok km' else KMeans.trainLoop fuel km'

/-- `KMeans.train`: seed clusters from the first `n_clusters` stored (index,
vector) pairs are appended to the existing cluster list, then the iteration
runs until the convergence check answers `True`. -/
def KMeans.train (fuel : ℕ) (km : KMeans) : Except String KMeans :=
  let seeds := (km.db.get_vectors none).take km.n_clusters
  KMeans.trainLoop fuel
    { km with clusters := km.clusters ++ seeds.map (fun p => ⟨p.2, []⟩) }

/-- The centroid-distance loop of `infer`: clusters are enumerated, one with
an empty centroid is skipped, and an undefined distance raises. -/
def centDistancesLoop (q : Vec) : ℕ → List ClusterDTO → Except String (List (ℚ × ℕ))
  | _, [] => .ok []
  | i, c :: rest =>
    if c.centroid = [] then centDistancesLoop q (i + 1) rest
    else
      match calculate_distance q c.centroid with
      | none => .error "Failed to calculate distance between query vector and centroid"
      | some d => do
        let tail ← centDistancesLoop q (i + 1) rest
        .ok ((d, i) :: tail)

/-- Python's stable `sorted(pairs, key=lambda pair: pair[0])`. -/
def sortByFst (l : List (ℚ × ℕ)) : List (ℚ × ℕ) :=
  List.insertionSort (fun a b => a.1 ≤ b.1) l

instance : IsTotal (ℚ × ℕ) (fun a b => a.1 ≤ b.1) :=
  ⟨fun a b => le_total a.1 b.1⟩

instance : IsTrans (ℚ × ℕ) (fun a b => a.1 ≤ b.1) :=
  ⟨fun _ _ _ h1 h2 => le_trans h1 h2⟩

/-- `KMeans.infer` before the `[:n_neighbours]` cut: the closest cluster is
selected by minimal (distance, index) pair — cluster `0` when no centroid is
comparable — and that cluster's member documents are ranked by distance to the
query.  An empty member list makes `get_vectors` fall back to every stored
vector. -/
def KMeans.inferCore (km : KMeans) (q : Vec) : Except String (List (ℚ × ℕ)) := do
  let cds ← centDistancesLoop q 0 km.clusters
  let closest := match pyMin cds with
    | none => 0
    | some m => m.2
  match km.clusters[closest]? with
  | none => .error "IndexError"
  | some cl => do
    let dds ← (km.db.get_vectors (some cl.indices)).mapM (fun p =>
      match calculate_distance q p.2 with
      | none => .error "Failed to calculate distance between query and document vectors"
      | some d => Except.ok (d, p.1))
    .ok (sortByFst dds)

/-- `KMeans.infer`: an empty query vector or a non-positive neighbour count is
a `ValueError`; otherwise the `n` closest (distance, document index) pairs of
the chosen cluster. -/
def KMeans.infer (km : KMeans) (q : Vec) (n : ℤ) : Except String (List (ℚ × ℕ)) :=
  if q = [] ∨ n ≤ 0 then .error "Invalid input argument"
  else do
    let full ← km.inferCore q
    .ok (full.take n.toNat)

/-- The clustering search engine: it owns the trainer, whose state carries the
shared database. -/
structure ClusteringSearchEngine where
  algo : KMeans
deriving DecidableEq

/-- The result-assembly loop of `retrieve_relevant_documents`:
`[(dist[0], docs[ind]) for ind, dist in enumerate(inference)]`, an
out-of-range position being an `IndexError`. -/
def zipScoresLoop (docs : List String) :
    ℕ → List (ℚ × ℕ) → Except String (List (ℚ × String))
  | _, [] => .ok []
  | i, p :: rest =>
    match docs[i]? with
    | none => .error "IndexError"
    | some d => do
      let tail ← zipScoresLoop docs (i + 1) rest
      .ok ((p.1, d) :: tail)

/-- `ClusteringSearchEngine.retrieve_relevant_documents`, parameterized by the
database's shared tokenizer and (query) vectorizer capabilities: input checks,
query tokenization and vectorization, a fresh training run, inference, and the
mapping of result indices back to raw text.  The mutated trainer state is
returned alongside the result, as repeated calls in the source keep mutating
the same `KMeans`. -/
def ClusteringSearchEngine.retrieve_relevant_documents
    (tokenize : String → List String) (vectorize : List String → Except String Vec)
    (eng : ClusteringSearchEngine) (query : String) (n : ℤ) (fuel : ℕ) :
    Except String (List (ℚ × String) × ClusteringSearchEngine) :=
  if query = "" ∨ n ≤ 0 then .error "Invalid Input argument"
  else
    let qt := tokenize query
    if qt = [] then .error "Failed to tokenize query"
    else do
      let qv ← vectorize qt
      if qv = [] then .error "Failed to vectorize query"
      else do
        let km' ← KMeans.train fuel eng.algo
        let inference ← km'.infer qv n
        let docs ← km'.db.get_raw_documents (some (inference.map Prod.snd))
        let res ← zipScoresLoop docs 0 inference
        .ok (res, ⟨km'⟩)

/-- A two-document database: two one-dimensional vectors `[0]` and `[2]`. -/
def dbEx : DocumentVectorDB := ⟨[(0, [0]), (1, [2])], ["a", "b"]⟩

/-- A fresh one-cluster trainer over `dbEx`, as `KMeans.__init__` leaves it. -/
def kmEx : KMeans := ⟨[], dbEx, 1⟩

/-- The state `KMeans.train` reaches from `kmEx`: one cluster seeded from the
first vector, whose centroid converged to the mean `[1]` of both vectors. -/
def stEx : KMeans := ⟨[⟨[1], [0, 1]⟩], dbEx, 1⟩

/-- A database whose first two vectors coincide: seeding two clusters from it
duplicates a centroid, so one cluster receives zero members. -/
def dbC2 : DocumentVectorDB := ⟨[(0, [1]), (1, [1]), (2, [5])], ["a", "b", "c"]⟩

/-- A fresh two-cluster trainer over `dbC2`. -/
def kmC2 : KMeans := ⟨[], dbC2, 2⟩

/-- The trainer state after seeding `kmC2`: two equal seed centroids. -/
def kmC2seeded : KMeans := ⟨[⟨[1], []⟩, ⟨[1], []⟩], dbC2, 2⟩

/-- A concrete tokenizer capability: the empty text tokenizes to nothing. -/
def tokC : String → List String := fun s => if s = "" then [] else [s]

/-- A concrete vectorizer capability producing the one-dimensional vector. -/
def vecC : List String → Except String Vec := fun _ => .ok [0]

/-- A clustering engine over `dbEx` with one cluster requested. -/
def engEx : ClusteringSearchEngine := ⟨kmEx⟩

/-- An empty database, as `DocumentVectorDB.__init__` leaves it. -/
def dbEmpty : DocumentVectorDB := ⟨[], []⟩

/-- The trainer state reached by seeding a second training run from `stEx`:
the trained cluster plus a fresh seed cluster, with distinct centroids. -/
def kmTwo : KMeans := ⟨[⟨[1], [0, 1]⟩, ⟨[0], []⟩], dbEx, 1⟩

theorem except_bind_ok {ε α β : Type} {x : Except ε α} {f : α → Except ε β} {b : β}
    (h : (x >>= f) = .ok b) : ∃ a, x = .ok a ∧ f a = .ok b := by
  cases x with
  | error e => exact absurd h (by simp [Bind.bind, Except.bind])
  | ok a => exact ⟨a, rfl, by simpa [Bind.bind, Except.bind] using h⟩

theorem except_bind_ok_of {ε α β : Type} {x : Except ε α} {f : α → Except ε β} {a : α}
    (hx : x = .ok a) : (x >>= f) = f a := by
  subst hx; rfl

theorem lexLe_refl (a : ℚ × ℕ) : lexLe a a := Or.inr ⟨rfl, le_refl _⟩

theorem lexLe_of_lexLt {a b : ℚ × ℕ} (h : lexLt a b) : lexLe a b := by
  rcases h with h | ⟨h1, h2⟩
  · exact Or.inl h
  · exact Or.inr ⟨h1, Nat.le_of_lt h2⟩

theorem lexLe_of_not_lexLt {a b : ℚ × ℕ} (h : ¬ lexLt b a) : lexLe a b := by
  unfold lexLt at h
  push_neg at h
  rcases lt_or_eq_of_le h.1 with h2 | h2
  · exact Or.inl h2
  · exact Or.inr ⟨h2, h.2 h2.symm⟩

theorem lexLe_trans {a b c : ℚ × ℕ} (h1 : lexLe a b) (h2 : lexLe b c) : lexLe a c := by
  rcases h1 with h1 | ⟨e1, l1⟩ <;> rcases h2 with h2 | ⟨e2, l2⟩
  · exact Or.inl (lt_trans h1 h2)
  · exact Or.inl (e2 ▸ h1)
  · exact Or.inl (e1 ▸ h2)
  · exact Or.inr ⟨e1.trans e2, le_trans l1 l2⟩

theorem pyMinFold_cons (x y : ℚ × ℕ) (l : List (ℚ × ℕ)) :
    pyMinFold x (y :: l) = pyMinFold (if lexLt y x then y else x) l := rfl

theorem pyMinFold_mem (x : ℚ × ℕ) (l : List (ℚ × ℕ)) : pyMinFold x l ∈ x :: l := by
  induction l generalizing x with
  | nil => simp [pyMinFold]
  | cons y ys ih =>
    rw [pyMinFold_cons]
    by_cases hc : lexLt y x
    · rw [if_pos hc]
      rcases List.mem_cons.mp (ih y) with h | h
      · rw [h]
        exact List.mem_cons_of_mem _ (List.mem_cons_self _ _)
      · exact List.mem_cons_of_mem _ (List.mem_cons_of_mem _ h)
    · rw [if_neg hc]
      rcases List.mem_cons.mp (ih x) with h | h
      · rw [h]
        exact List.mem_cons_self _ _
      · exact List.mem_cons_of_mem _ (List.mem_cons_of_mem _ h)

theorem pyMinFold_le (x : ℚ × ℕ) (l : List (ℚ × ℕ)) :
    ∀ y ∈ x :: l, lexLe (pyMinFold x l) y := by
  induction l generalizing x with
  | nil =>
    intro y hy
    rw [List.mem_singleton] at hy
    subst hy
    exact lexLe_refl y
  | cons z zs ih =>
    intro y hy
    rw [pyMinFold_cons]
    by_cases hc : lexLt z x
    · rw [if_pos hc]
      have hhead : lexLe (pyMinFold z zs) z := ih z z (List.mem_cons_self z zs)
      rcases List.mem_cons.mp hy with hyx | hy'
      · subst hyx
        exact lexLe_trans hhead (lexLe_of_lexLt hc)
      · rcases List.mem_cons.mp hy' with hyz | hyzs
        · subst hyz
          exact hhead
        · exact ih z y (List.mem_cons_of_mem z hyzs)
    · rw [if_neg hc]
      have hhead : lexLe (pyMinFold x zs) x := ih x x (List.mem_cons_self x zs)
      rcases List.mem_cons.mp hy with hyx | hy'
      · subst hyx
        exact hhead
      · rcases List.mem_cons.mp hy' with hyz | hyzs
        · subst hyz
          exact lexLe_trans hhead (lexLe_of_not_lexLt hc)
        · exact ih x y (List.mem_cons_of_mem x hyzs)

theorem pyMin_spec {l : List (ℚ × ℕ)} {m : ℚ × ℕ} (h : pyMin l = some m) :
    m ∈ l ∧ ∀ y ∈ l, lexLe m y := by
  cases l with
  | nil => simp [pyMin] at h
  | cons x xs =>
    have hm : m = pyMinFold x xs := by simpa [pyMin] using h.symm
    subst hm
    exact ⟨pyMinFold_mem x xs, pyMinFold_le x xs⟩

theorem idxOfFirst_getElem? {α : Type} [DecidableEq α] {l : List α} {a : α} (h : a ∈ l) :
    l[idxOfFirst l a]? = some a := by
  induction l with
  | nil => simp at h
  | cons x xs ih =>
    by_cases hx : x = a
    · simp [idxOfFirst, hx]
    · have hmem : a ∈ xs := by
        rcases List.mem_cons.mp h with h' | h'
        · exact absurd h'.symm hx
        · exact h'
      simp [idxOfFirst, hx, ih hmem]

theorem idxOfFirst_le {α : Type} [DecidableEq α] {l : List α} {a : α} {i : ℕ}
    (h : l[i]? = some a) : idxOfFirst l a ≤ i := by
  induction l generalizing i with
  | nil => simp at h
  | cons x xs ih =>
    by_cases hx : x = a
    · simp [idxOfFirst, hx]
    · cases i with
      | zero =>
        rw [List.getElem?_cons_zero] at h
        exact absurd (Option.some_inj.mp h) hx
      | succ i =>
        rw [List.getElem?_cons_succ] at h
        simp only [idxOfFirst, hx, if_false]
        exact Nat.succ_le_succ (ih h)

theorem idxOfFirst_of_nodup {α : Type} [DecidableEq α] {l : List α} (hnd : l.Nodup)
    {i : ℕ} {a : α} (h : l[i]? = some a) : idxOfFirst l a = i := by
  have hmem : a ∈ l := List.getElem?_mem h
  have h2 := idxOfFirst_getElem? hmem
  have hlt : idxOfFirst l a < l.length := by
    by_contra hge
    rw [List.getElem?_eq_none (not_lt.mp hge)] at h2
    exact Option.noConfusion h2
  exact List.getElem?_inj hlt hnd (h2.trans h.symm)

theorem dedupFirstAux_sublist (seen : List ℕ) (l : List ℕ) :
    (dedupFirstAux seen l).Sublist l := by
  induction l generalizing seen with
  | nil => simp [dedupFirstAux]
  | cons i rest ih =>
    by_cases hi : i ∈ seen
    · simp only [dedupFirstAux, if_pos hi]
      exact (ih seen).cons i
    · simp only [dedupFirstAux, if_neg hi]
      exact (ih (seen ++ [i])).cons₂ i

theorem mem_dedupFirstAux {seen l : List ℕ} {x : ℕ} :
    x ∈ dedupFirstAux seen l ↔ x ∈ l ∧ x ∉ seen := by
  induction l generalizing seen with
  | nil => simp [dedupFirstAux]
  | cons i rest ih =>
    by_cases hi : i ∈ seen
    · rw [dedupFirstAux, if_pos hi, ih, List.mem_cons]
      constructor
      · rintro ⟨hx, hs⟩
        exact ⟨Or.inr hx, hs⟩
      · rintro ⟨hx | hx, hs⟩
        · exact absurd (hx ▸ hi) hs
        · exact ⟨hx, hs⟩
    · rw [dedupFirstAux, if_neg hi, List.mem_cons, ih, List.mem_cons]
      constructor
      · rintro (hx | ⟨hx, hs⟩)
        · exact ⟨Or.inl hx, fun hmem => hi (hx ▸ hmem)⟩
        · rw [List.mem_append, List.mem_singleton] at hs
          push_neg at hs
          exact ⟨Or.inr hx, hs.1⟩
      · rintro ⟨hx | hx, hs⟩
        · exact Or.inl hx
        · by_cases hxi : x = i
          · exact Or.inl hxi
          · refine Or.inr ⟨hx, ?_⟩
            rw [List.mem_append, List.mem_singleton]
            push_neg
            exact ⟨hs, hxi⟩

theorem nodup_dedupFirstAux (seen l : List ℕ) : (dedupFirstAux seen l).Nodup := by
  induction l generalizing seen with
  | nil => simp [dedupFirstAux]
  | cons i rest ih =>
    by_cases hi : i ∈ seen
    · rw [dedupFirstAux, if_pos hi]
      exact ih seen
    · rw [dedupFirstAux, if_neg hi]
      refine List.nodup_cons.mpr ⟨?_, ih (seen ++ [i])⟩
      intro hmem
      have h2 := (mem_dedupFirstAux.mp hmem).2
      rw [List.mem_append, List.mem_singleton] at h2
      push_neg at h2
      exact h2.2 rfl

theorem dedupFirst_sublist (l : List ℕ) : (dedupFirst l).Sublist l :=
  dedupFirstAux_sublist [] l

theorem dedupFirst_nodup (l : List ℕ) : (dedupFirst l).Nodup :=
  nodup_dedupFirstAux [] l

theorem mem_dedupFirst {l : List ℕ} {x : ℕ} : x ∈ dedupFirst l ↔ x ∈ l := by
  rw [dedupFirst, mem_dedupFirstAux]
  simp

theorem dedupFirstAux_of_nodup {l : List ℕ} (h : l.Nodup) :
    ∀ {seen : List ℕ}, (∀ x ∈ l, x ∉ seen) → dedupFirstAux seen l = l := by
  induction l with
  | nil => intro seen _; simp [dedupFirstAux]
  | cons i rest ih =>
    intro seen hd
    have hi : i ∉ seen := hd i (List.mem_cons_self _ _)
    rw [dedupFirstAux, if_neg hi]
    congr 1
    refine ih (List.nodup_cons.mp h).2 ?_
    intro x hx hmem
    rcases List.mem_append.mp hmem with hs | hs
    · exact hd x (List.mem_cons_of_mem _ hx) hs
    · rw [List.mem_singleton] at hs
      subst hs
      exact (List.nodup_cons.mp h).1 hx

theorem dedupFirst_of_nodup {l : List ℕ} (h : l.Nodup) : dedupFirst l = l :=
  dedupFirstAux_of_nodup h (by simp)

theorem mapM_lookup_ok (docs : List String) (l : List ℕ)
    (h : ∀ i ∈ l, i < docs.length) :
    (l.mapM (fun i =>
        match docs[i]? with
        | some d => Except.ok d
        | none => Except.error "IndexError")
      : Except String (List String)) = .ok (l.map (fun i => docs.getD i "")) := by
  induction l with
  | nil => rfl
  | cons i rest ih =>
    rw [List.mapM_cons]
    have hlt := h i (List.mem_cons_self _ _)
    have hsome : docs[i]? = some (docs.getD i "") := by
      rw [List.getElem?_eq_getElem hlt]
      rw [List.getD_eq_getElem?_getD, List.getElem?_eq_getElem hlt]
      rfl
    rw [hsome]
    have hrest := ih (fun j hj => h j (List.mem_cons_of_mem _ hj))
    rw [hrest]
    rfl

theorem zipScoresLoop_ok (docs : List String) (inf : List (ℚ × ℕ)) :
    ∀ (i : ℕ), i + inf.length ≤ docs.length →
      ∃ out, zipScoresLoop docs i inf = .ok out ∧
        out.map Prod.fst = inf.map Prod.fst := by
  induction inf with
  | nil =>
    intro i _
    exact ⟨[], rfl, rfl⟩
  | cons p rest ih =>
    intro i hlen
    have hlt : i < docs.length := by simp at hlen; omega
    obtain ⟨out, hout, hmapf⟩ := ih (i + 1) (by simp at hlen ⊢; omega)
    refine ⟨(p.1, docs.getD i "") :: out, ?_, by simp [hmapf]⟩
    rw [zipScoresLoop]
    have hsome : docs[i]? = some (docs.getD i "") := by
      rw [List.getElem?_eq_getElem hlt, List.getD_eq_getElem?_getD,
        List.getElem?_eq_getElem hlt]
      rfl
    rw [hsome, hout]
    rfl

theorem computeDistancesAux_spec {cs : List Vec} {v : Vec} {rest : List Vec}
    {ds : List (ℚ × ℕ)} (h : computeDistancesAux cs v rest = .ok ds) :
    ds.length = rest.length ∧
    ∀ (k : ℕ) (c : Vec), rest[k]? = some c →
      ∃ d, calculate_distance v c = some d ∧ ds[k]? = some (d, idxOfFirst cs c) := by
  induction rest generalizing ds with
  | nil =>
    have hds : ds = [] := by
      rw [computeDistancesAux] at h
      exact (Option.some_inj.mp (congrArg Except.toOption h)).symm ▸ rfl
    subst hds
    refine ⟨rfl, ?_⟩
    intro k c hk
    simp at hk
  | cons c rest ih =>
    rw [computeDistancesAux] at h
    cases hdist : calculate_distance v c with
    | none =>
      rw [hdist] at h
      exact absurd h (by simp)
    | some d =>
      rw [hdist] at h
      obtain ⟨tail, htail, hds⟩ := except_bind_ok h
      have hds' : ds = (d, idxOfFirst cs c) :: tail := by
        have := hds
        simp only [Except.ok.injEq] at this
        exact this.symm
      subst hds'
      obtain ⟨hlen, hspec⟩ := ih htail
      refine ⟨by simp [hlen], ?_⟩
      intro k c' hk
      cases k with
      | zero =>
        rw [List.getElem?_cons_zero] at hk
        obtain rfl : c = c' := Option.some_inj.mp hk
        exact ⟨d, hdist, by simp⟩
      | succ k =>
        rw [List.getElem?_cons_succ] at hk
        obtain ⟨d', hd', hget⟩ := hspec k c' hk
        exact ⟨d', hd', by simpa using hget⟩

theorem assignCluster_spec {cs : List Vec} {v : Vec} {j : ℕ}
    (h : assignCluster cs v = .ok j) :
    ∃ hj : j < cs.length,
      ∀ (k : ℕ) (hk : k < cs.length),
        ∃ dj dk, calculate_distance v (cs.get ⟨j, hj⟩) = some dj ∧
          calculate_distance v (cs.get ⟨k, hk⟩) = some dk ∧
          (dj < dk ∨ (dj = dk ∧ j ≤ k)) := by
  unfold assignCluster at h
  obtain ⟨ds, hds, hmin⟩ := except_bind_ok h
  obtain ⟨hlen, hspec⟩ := computeDistancesAux_spec hds
  cases hpm : pyMin ds with
  | none =>
    rw [hpm] at hmin
    exact absurd hmin (by simp)
  | some m =>
    rw [hpm] at hmin
    have hj : j = m.2 := by
      simp only [Except.ok.injEq] at hmin
      exact hmin.symm
    obtain ⟨hmem, hle⟩ := pyMin_spec hpm
    obtain ⟨p, hp⟩ := List.mem_iff_getElem?.mp hmem
    have hplt : p < cs.length := by
      have : p < ds.length := (List.getElem?_eq_some.mp hp).choose
      omega
    have hcp : cs[p]? = some cs[p] := List.getElem?_eq_getElem hplt
    obtain ⟨dp, hdp, hdsp⟩ := hspec p cs[p] hcp
    have hm : m = (dp, idxOfFirst cs cs[p]) := by
      rw [hp] at hdsp
      exact Option.some_inj.mp hdsp.symm |>.symm
    have hjidx : j = idxOfFirst cs cs[p] := by rw [hj, hm]
    have hjget : cs[j]? = some cs[p] := hjidx ▸ idxOfFirst_getElem? (List.getElem_mem hplt)
    have hjlt : j < cs.length := (List.getElem?_eq_some.mp hjget).choose
    have hjval : cs.get ⟨j, hjlt⟩ = cs[p] := by
      have := List.getElem?_eq_getElem hjlt
      rw [this] at hjget
      exact Option.some_inj.mp hjget
    refine ⟨hjlt, ?_⟩
    intro k hk
    have hck : cs[k]? = some cs[k] := List.getElem?_eq_getElem hk
    obtain ⟨dk, hdk, hdsk⟩ := hspec k cs[k] hck
    have hmemk : (dk, idxOfFirst cs cs[k]) ∈ ds := List.getElem?_mem hdsk
    have hlek := hle _ hmemk
    rw [hm] at hlek
    have hidxk : idxOfFirst cs cs[k] ≤ k := idxOfFirst_le hck
    refine ⟨dp, dk, ?_, ?_, ?_⟩
    · show calculate_distance v (cs.get ⟨j, hjlt⟩) = some dp
      rw [hjval]
      exact hdp
    · show calculate_distance v (cs.get ⟨k, hk⟩) = some dk
      have : cs.get ⟨k, hk⟩ = cs[k] := rfl
      rw [this]
      exact hdk
    · rcases hlek with hlt | ⟨heq, hle2⟩
      · exact Or.inl hlt
      · exact Or.inr ⟨heq, by rw [hjidx]; omega⟩

theorem mem_add_document_index (c : ClusterDTO) (i : ℕ) :
    i ∈ (c.add_document_index i).indices := by
  unfold ClusterDTO.add_document_index
  by_cases h : i ∈ c.indices
  · rw [if_pos h]
    exact h
  · rw [if_neg h]
    simp

theorem mem_add_document_index_of_mem {c : ClusterDTO} {x : ℕ} (hx : x ∈ c.indices)
    (i : ℕ) : x ∈ (c.add_document_index i).indices := by
  unfold ClusterDTO.add_document_index
  by_cases h : i ∈ c.indices
  · rw [if_pos h]
    exact hx
  · rw [if_neg h]
    simp [hx]

theorem assignLoop_spec {cs : List Vec} {all : List (ℕ × Vec)} :
    ∀ {rest : List (ℕ × Vec)} {acc out : List ClusterDTO},
      assignLoop cs all rest acc = .ok out →
      out.length = acc.length ∧
      (∀ (i : ℕ) (c : ClusterDTO), acc[i]? = some c →
        ∃ c', out[i]? = some c' ∧ ∀ x ∈ c.indices, x ∈ c'.indices) ∧
      (∀ (r : ℕ) (p : ℕ × Vec), rest[r]? = some p →
        ∀ j, assignCluster cs p.2 = .ok j →
          ∃ c', out[j]? = some c' ∧ idxOfFirst all p ∈ c'.indices) := by
  intro rest
  induction rest with
  | nil =>
    intro acc out h
    have hout : out = acc := by
      rw [assignLoop] at h
      simp only [Except.ok.injEq] at h
      exact h.symm
    subst hout
    refine ⟨rfl, ?_, ?_⟩
    · intro i c hc
      exact ⟨c, hc, fun x hx => hx⟩
    · intro r p hp
      simp at hp
  | cons p rest ih =>
    intro acc out h
    rw [assignLoop] at h
    obtain ⟨j, hjok, h2⟩ := except_bind_ok h
    cases hacc : acc[j]? with
    | none =>
      rw [hacc] at h2
      exact absurd h2 (by simp)
    | some c =>
      rw [hacc] at h2
      have hjlt : j < acc.length := (List.getElem?_eq_some.mp hacc).choose
      obtain ⟨hlen, hmono, hassign⟩ := ih h2
      have hlen' : out.length = acc.length := by
        rw [hlen, List.length_set]
      refine ⟨hlen', ?_, ?_⟩
      · intro i c0 hc0
        by_cases hij : i = j
        · subst hij
          obtain rfl : c0 = c := by
            rw [hacc] at hc0
            exact Option.some_inj.mp hc0.symm
          have hset : (acc.set i (c0.add_document_index (idxOfFirst all p)))[i]? =
              some (c0.add_document_index (idxOfFirst all p)) :=
            List.getElem?_set_self hjlt
          obtain ⟨c', hc', hsub⟩ := hmono i _ hset
          exact ⟨c', hc', fun x hx => hsub x (mem_add_document_index_of_mem hx _)⟩
        · have hset : (acc.set j (c.add_document_index (idxOfFirst all p)))[i]? = some c0 := by
            rw [List.getElem?_set_ne (fun he => hij he.symm)]
            exact hc0
          exact hmono i c0 hset
      · intro r q hq jq hjq
        cases r with
        | zero =>
          rw [List.getElem?_cons_zero] at hq
          obtain rfl : p = q := Option.some_inj.mp hq
          have hjeq : jq = j := by
            rw [hjok] at hjq
            simp only [Except.ok.injEq] at hjq
            exact hjq.symm
          subst hjeq
          have hset : (acc.set jq (c.add_document_index (idxOfFirst all p)))[jq]? =
              some (c.add_document_index (idxOfFirst all p)) :=
            List.getElem?_set_self hjlt
          obtain ⟨c', hc', hsub⟩ := hmono jq _ hset
          exact ⟨c', hc', hsub _ (mem_add_document_index c _)⟩
        | succ r =>
          rw [List.getElem?_cons_succ] at hq
          exact hassign r q hq jq hjq

theorem meanCentroid_nil : meanCentroid [] = [] := rfl

theorem updateCentroids_spec {vectors : List (ℕ × Vec)} :
    ∀ {cls out : List ClusterDTO}, updateCentroids vectors cls = .ok out →
      out.length = cls.length ∧
      ∀ (i : ℕ) (c : ClusterDTO), cls[i]? = some c →
        ∃ c', out[i]? = some c' ∧ c'.indices = c.indices ∧
          c'.centroid ≠ [] ∧ c.indices ≠ [] := by
  intro cls
  induction cls with
  | nil =>
    intro out h
    have hout : out = [] := by
      rw [updateCentroids] at h
      simp only [Except.ok.injEq] at h
      exact h.symm
    subst hout
    refine ⟨rfl, ?_⟩
    intro i c hc
    simp at hc
  | cons c0 cls ih =>
    intro out h
    rw [updateCentroids] at h
    obtain ⟨cvs, hcvs, h2⟩ := except_bind_ok h
    obtain ⟨c', hc', h3⟩ := except_bind_ok h2
    obtain ⟨rest', hrest', h4⟩ := except_bind_ok h3
    have hout : out = c' :: rest' := by
      simp only [Except.ok.injEq] at h4
      exact h4.symm
    subst hout
    have hcentroid : meanCentroid cvs ≠ [] ∧ c' = { c0 with centroid := meanCentroid cvs } := by
      unfold ClusterDTO.set_new_centroid at hc'
      by_cases hmc : meanCentroid cvs = []
      · rw [if_pos hmc] at hc'
        exact absurd hc' (by simp)
      · rw [if_neg hmc] at hc'
        simp only [Except.ok.injEq] at hc'
        exact ⟨hmc, hc'.symm⟩
    have hind : c0.indices ≠ [] := by
      intro hnil
      rw [hnil] at hcvs
      have : cvs = [] := by
        rw [List.mapM_nil] at hcvs
        simp only [pure, Except.pure, Except.ok.injEq] at hcvs
        exact hcvs.symm
      rw [this, meanCentroid_nil] at hcentroid
      exact hcentroid.1 rfl
    obtain ⟨hlen, hspec⟩ := ih hrest'
    refine ⟨by simp [hlen], ?_⟩
    intro i ci hci
    cases i with
    | zero =>
      rw [List.getElem?_cons_zero] at hci
      obtain rfl : c0 = ci := Option.some_inj.mp hci
      refine ⟨c', by simp, ?_, hcentroid.1 ∘ ?_, hind⟩
      · rw [hcentroid.2]
      · intro hc'c
        rw [hcentroid.2] at hc'c
        exact hc'c
    | succ i =>
      rw [List.getElem?_cons_succ] at hci
      obtain ⟨ci', hci', hrest''⟩ := hspec i ci hci
      exact ⟨ci', by simpa using hci', hrest''⟩

theorem run_iteration_parts {km km' : KMeans} (h : km.run_single_train_iteration = .ok km') :
    ∃ assigned,
      assignLoop (km.clusters.map ClusterDTO.centroid) (km.db.get_vectors none)
        (km.db.get_vectors none) (km.clusters.map ClusterDTO.erase_indices) = .ok assigned ∧
      updateCentroids (km.db.get_vectors none) assigned = .ok km'.clusters ∧
      km'.db = km.db ∧ km'.n_clusters = km.n_clusters := by
  unfold KMeans.run_single_train_iteration at h
  obtain ⟨assigned, ha, h2⟩ := except_bind_ok h
  obtain ⟨updated, hu, h3⟩ := except_bind_ok h2
  have hkm : km' = { km with clusters := updated } := by
    simp only [Except.ok.injEq] at h3
    exact h3.symm
  subst hkm
  exact ⟨assigned, ha, hu, rfl, rfl⟩

theorem run_iteration_spec {km km' : KMeans} (h : km.run_single_train_iteration = .ok km') :
    km'.clusters.length = km.clusters.length ∧ km'.db = km.db ∧
    km'.n_clusters = km.n_clusters ∧
    ∀ c' ∈ km'.clusters, c'.centroid ≠ [] ∧ c'.indices ≠ [] := by
  obtain ⟨assigned, ha, hu, hdb, hn⟩ := run_iteration_parts h
  obtain ⟨hlen1, _, _⟩ := assignLoop_spec ha
  obtain ⟨hlen2, hspec⟩ := updateCentroids_spec hu
  refine ⟨by rw [hlen2, hlen1, List.length_map], hdb, hn, ?_⟩
  intro c' hc'
  obtain ⟨i, hi⟩ := List.mem_iff_getElem?.mp hc'
  have hilt : i < assigned.length := by
    have h1 : i < km'.clusters.length := (List.getElem?_eq_some.mp hi).choose
    omega
  obtain ⟨c'', hc'', hind, hcent, hane⟩ := hspec i _ (List.getElem?_eq_getElem hilt)
  obtain rfl : c'' = c' := by
    rw [hi] at hc''
    exact (Option.some_inj.mp hc'').symm
  exact ⟨hcent, by rw [hind]; exact hane⟩

theorem convergence_ok_nonempty {km : KMeans} {ncs : List ClusterDTO} {t : ℚ} {b : Bool}
    (h : km.is_convergence_reached ncs t = .ok b) : ncs ≠ [] ∧ t ≠ 0 := by
  unfold KMeans.is_convergence_reached at h
  by_cases hcond : ncs = [] ∨ t = 0
  · rw [if_pos hcond] at h
    exact absurd h (by simp)
  · push_neg at hcond
    exact hcond

theorem trainLoop_invariants : ∀ (fuel : ℕ) {km km' : KMeans},
    KMeans.trainLoop fuel km = .ok km' →
    km'.db = km.db ∧ km'.n_clusters = km.n_clusters ∧
    km'.clusters.length = km.clusters.length ∧
    km'.clusters ≠ [] ∧
    ∀ c' ∈ km'.clusters, c'.centroid ≠ [] ∧ c'.indices ≠ [] := by
  intro fuel
  induction fuel with
  | zero =>
    intro km km' h
    exact absurd h (by simp [KMeans.trainLoop])
  | succ fuel ih =>
    intro km km' h
    rw [KMeans.trainLoop] at h
    obtain ⟨km1, h1, h2⟩ := except_bind_ok h
    obtain ⟨conv, hc, h3⟩ := except_bind_ok h2
    obtain ⟨hlen1, hdb1, hn1, hinv1⟩ := run_iteration_spec h1
    cases conv with
    | false =>
      simp only [Bool.false_eq_true, if_false] at h3
      obtain ⟨hdb, hn, hlen, hne, hinv⟩ := ih h3
      exact ⟨hdb.trans hdb1, hn.trans hn1, hlen.trans hlen1, hne, hinv⟩
    | true =>
      simp only [if_true] at h3
      obtain rfl : km1 = km' := by
        simp only [Except.ok.injEq] at h3
        exact h3
      exact ⟨hdb1, hn1, hlen1, (convergence_ok_nonempty hc).1, hinv1⟩

theorem train_spec {fuel : ℕ} {km km' : KMeans} (h : KMeans.train fuel km = .ok km') :
    km'.db = km.db ∧ km'.n_clusters = km.n_clusters ∧
    km'.clusters.length =
      km.clusters.length + min km.n_clusters (km.db.get_vectors none).length ∧
    km'.clusters ≠ [] ∧
    ∀ c' ∈ km'.clusters, c'.centroid ≠ [] ∧ c'.indices ≠ [] := by
  unfold KMeans.train at h
  obtain ⟨hdb, hn, hlen, hne, hinv⟩ := trainLoop_invariants _ h
  refine ⟨hdb, hn, ?_, hne, hinv⟩
  rw [hlen]
  simp [List.length_append, List.length_map, List.length_take]

theorem centDistancesLoop_spec {q : Vec} :
    ∀ {cls : List ClusterDTO}, (∀ c ∈ cls, c.centroid ≠ []) →
      ∀ {i : ℕ} {cds : List (ℚ × ℕ)}, centDistancesLoop q i cls = .ok cds →
        cds.length = cls.length ∧
        ∀ (k : ℕ) (c : ClusterDTO), cls[k]? = some c →
          ∃ d, calculate_distance q c.centroid = some d ∧ cds[k]? = some (d, i + k) := by
  intro cls
  induction cls with
  | nil =>
    intro _ i cds h
    have hcds : cds = [] := by
      rw [centDistancesLoop] at h
      simp only [Except.ok.injEq] at h
      exact h.symm
    subst hcds
    refine ⟨rfl, ?_⟩
    intro k c hk
    simp at hk
  | cons c0 cls ih =>
    intro hne i cds h
    rw [centDistancesLoop] at h
    have hc0 : c0.centroid ≠ [] := hne c0 (List.mem_cons_self _ _)
    rw [if_neg hc0] at h
    cases hdist : calculate_distance q c0.centroid with
    | none =>
      rw [hdist] at h
      exact absurd h (by simp)
    | some d =>
      rw [hdist] at h
      obtain ⟨tail, htail, hcds⟩ := except_bind_ok h
      obtain rfl : cds = (d, i) :: tail := by
        simp only [Except.ok.injEq] at hcds
        exact hcds.symm
      obtain ⟨hlen, hspec⟩ := ih (fun c hc => hne c (List.mem_cons_of_mem _ hc)) htail
      refine ⟨by simp [hlen], ?_⟩
      intro k c hk
      cases k with
      | zero =>
        rw [List.getElem?_cons_zero] at hk
        obtain rfl : c0 = c := Option.some_inj.mp hk
        exact ⟨d, hdist, by simp⟩
      | succ k =>
        rw [List.getElem?_cons_succ] at hk
        obtain ⟨d', hd', hget⟩ := hspec k c hk
        refine ⟨d', hd', ?_⟩
        have harith : i + (k + 1) = (i + 1) + k := by omega
        rw [List.getElem?_cons_succ, harith]
        exact hget

theorem mapM_dist_spec {q : Vec} :
    ∀ {dvs : List (ℕ × Vec)} {dds : List (ℚ × ℕ)},
      (dvs.mapM (fun p =>
        match calculate_distance q p.2 with
        | none => Except.error "Failed to calculate distance between query and document vectors"
        | some d => Except.ok (d, p.1)) : Except String (List (ℚ × ℕ))) = .ok dds →
      dds.map Prod.snd = dvs.map Prod.fst := by
  intro dvs
  induction dvs with
  | nil =>
    intro dds h
    have : dds = [] := by
      rw [List.mapM_nil] at h
      simp only [pure, Except.pure, Except.ok.injEq] at h
      exact h.symm
    subst this
    rfl
  | cons p rest ih =>
    intro dds h
    rw [List.mapM_cons] at h
    cases hdist : calculate_distance q p.2 with
    | none =>
      rw [hdist] at h
      exact absurd h (by simp [Bind.bind, Except.bind])
    | some d =>
      rw [hdist] at h
      obtain ⟨y, hy, h2⟩ := except_bind_ok h
      obtain rfl : y = (d, p.1) := by
        simp only [pure, Except.pure, Except.ok.injEq] at hy
        exact hy.symm
      obtain ⟨tail, htail, h3⟩ := except_bind_ok h2
      obtain rfl : dds = (d, p.1) :: tail := by
        simp only [pure, Except.pure, Except.ok.injEq] at h3
        exact h3.symm
      simp only [List.map_cons]
      rw [ih htail]

theorem sortByFst_perm (l : List (ℚ × ℕ)) : (sortByFst l).Perm l :=
  List.perm_insertionSort _ l

theorem sortByFst_pairwise (l : List (ℚ × ℕ)) :
    List.Pairwise (fun a b : ℚ × ℕ => a.1 ≤ b.1) (sortByFst l) :=
  List.sorted_insertionSort _ l

theorem get_vectors_some_mem {db : DocumentVectorDB} {l : List ℕ} (hl : l ≠ [])
    {p : ℕ × Vec} (hp : p ∈ db.get_vectors (some l)) : p.1 ∈ l := by
  simp only [DocumentVectorDB.get_vectors] at hp
  rw [if_neg hl] at hp
  have hmem := List.mem_filter.mp hp
  simpa using hmem.2

theorem inferCore_spec {km : KMeans} {q : Vec} {full : List (ℚ × ℕ)}
    (hinv : ∀ c ∈ km.clusters, c.centroid ≠ [] ∧ c.indices ≠ [])
    (hcl : km.clusters ≠ [])
    (h : km.inferCore q = .ok full) :
    ∃ (j : ℕ) (hj : j < km.clusters.length),
      (∀ (k : ℕ) (hk : k < km.clusters.length),
        ∃ dj dk,
          calculate_distance q ((km.clusters.get ⟨j, hj⟩).centroid) = some dj ∧
          calculate_distance q ((km.clusters.get ⟨k, hk⟩).centroid) = some dk ∧
          (dj < dk ∨ (dj = dk ∧ j ≤ k))) ∧
      (∀ p ∈ full, p.2 ∈ (km.clusters.get ⟨j, hj⟩).indices) ∧
      List.Pairwise (fun a b : ℚ × ℕ => a.1 ≤ b.1) full ∧
      full.length =
        (km.db.get_vectors (some ((km.clusters.get ⟨j, hj⟩).indices))).length := by
  unfold KMeans.inferCore at h
  obtain ⟨cds, hcds, h2⟩ := except_bind_ok h
  obtain ⟨hlen, hspec⟩ := centDistancesLoop_spec (fun c hc => (hinv c hc).1) hcds
  have hcdsne : cds ≠ [] := by
    intro hnil
    apply hcl
    rw [← List.length_eq_zero, ← hlen, hnil]
    rfl
  cases hpm : pyMin cds with
  | none =>
    cases cds with
    | nil => exact absurd rfl hcdsne
    | cons a as => exact absurd hpm (by simp [pyMin])
  | some m =>
    simp only [hpm] at h2
    obtain ⟨hmem, hle⟩ := pyMin_spec hpm
    obtain ⟨p, hp⟩ := List.mem_iff_getElem?.mp hmem
    have hplt : p < km.clusters.length := by
      have : p < cds.length := (List.getElem?_eq_some.mp hp).choose
      omega
    obtain ⟨dp, hdp, hcdsp⟩ := hspec p _ (List.getElem?_eq_getElem hplt)
    have hm : m = (dp, p) := by
      rw [hp] at hcdsp
      have heq := Option.some_inj.mp hcdsp
      rw [Nat.zero_add] at heq
      exact heq
    have hj2 : m.2 = p := by rw [hm]
    rw [hj2] at h2
    cases hget : km.clusters[p]? with
    | none =>
      rw [hget] at h2
      exact absurd h2 (by simp)
    | some cl =>
      rw [hget] at h2
      obtain ⟨dds, hdds, h3⟩ := except_bind_ok h2
      have hfull : full = sortByFst dds := by
        simp only [Except.ok.injEq] at h3
        exact h3.symm
      have hclval : cl = km.clusters.get ⟨p, hplt⟩ := by
        rw [List.getElem?_eq_getElem hplt] at hget
        exact (Option.some_inj.mp hget).symm
      have hmapsnd := mapM_dist_spec hdds
      have hclmem : cl ∈ km.clusters := by
        rw [hclval]
        exact List.get_mem _ _ hplt
      have hclind : cl.indices ≠ [] := (hinv cl hclmem).2
      refine ⟨p, hplt, ?_, ?_, ?_, ?_⟩
      · intro k hk
        obtain ⟨dk, hdk, hcdsk⟩ := hspec k _ (List.getElem?_eq_getElem hk)
        have hmemk : ((dk, 0 + k) : ℚ × ℕ) ∈ cds := List.getElem?_mem hcdsk
        have hlek := hle _ hmemk
        rw [hm] at hlek
        refine ⟨dp, dk, ?_, hdk, ?_⟩
        · exact hdp
        · rcases hlek with hlt | ⟨heq, hle2⟩
          · exact Or.inl hlt
          · refine Or.inr ⟨heq, ?_⟩
            omega
      · intro pr hpr
        rw [hfull] at hpr
        have hprdds : pr ∈ dds := (sortByFst_perm dds).mem_iff.mp hpr
        have : pr.2 ∈ dds.map Prod.snd := List.mem_map_of_mem _ hprdds
        rw [hmapsnd] at this
        obtain ⟨pv, hpv, hpveq⟩ := List.mem_map.mp this
        have hkey : pv.1 ∈ cl.indices := get_vectors_some_mem hclind hpv
        rw [← hclval]
        rw [hpveq] at hkey
        exact hkey
      · rw [hfull]
        exact sortByFst_pairwise dds
      · rw [hfull, ← hclval]
        have h1 : (sortByFst dds).length = dds.length := (sortByFst_perm dds).length_eq
        have h2' : dds.length = (km.db.get_vectors (some cl.indices)).length := by
          have := congrArg List.length hmapsnd
          simpa using this
        rw [h1, h2']

theorem infer_spec {km : KMeans} {q : Vec} {n : ℤ} {res : List (ℚ × ℕ)}
    (h : km.infer q n = .ok res) :
    ∃ full, km.inferCore q = .ok full ∧ res = full.take n.toNat ∧ q ≠ [] ∧ 0 < n := by
  unfold KMeans.infer at h
  by_cases hcond : q = [] ∨ n ≤ 0
  · rw [if_pos hcond] at h
    exact absurd h (by simp)
  · rw [if_neg hcond] at h
    push_neg at hcond
    obtain ⟨full, hfull, h2⟩ := except_bind_ok h
    refine ⟨full, hfull, ?_, hcond.1, by omega⟩
    simp only [Except.ok.injEq] at h2
    exact h2.symm

theorem zipScoresLoop_spec {docs : List String} :
    ∀ {inf : List (ℚ × ℕ)} {i : ℕ} {out : List (ℚ × String)},
      zipScoresLoop docs i inf = .ok out → out.map Prod.fst = inf.map Prod.fst := by
  intro inf
  induction inf with
  | nil =>
    intro i out h
    have : out = [] := by
      rw [zipScoresLoop] at h
      simp only [Except.ok.injEq] at h
      exact h.symm
    subst this
    rfl
  | cons p rest ih =>
    intro i out h
    rw [zipScoresLoop] at h
    cases hd : docs[i]? with
    | none =>
      rw [hd] at h
      exact absurd h (by simp)
    | some d =>
      rw [hd] at h
      obtain ⟨tail, htail, h2⟩ := except_bind_ok h
      obtain rfl : out = (p.1, d) :: tail := by
        simp only [Except.ok.injEq] at h2
        exact h2.symm
      simp only [List.map_cons]
      rw [ih htail]

theorem retrieve_ok_parts {tok : String → List String} {vec : List String → Except String Vec}
    {eng : ClusteringSearchEngine} {query : String} {n : ℤ} {fuel : ℕ}
    {res : List (ℚ × String)} {eng' : ClusteringSearchEngine}
    (h : ClusteringSearchEngine.retrieve_relevant_documents tok vec eng query n fuel
        = .ok (res, eng')) :
    ∃ qv km' inference docs,
      vec (tok query) = .ok qv ∧ KMeans.train fuel eng.algo = .ok km' ∧
      km'.infer qv n = .ok inference ∧
      km'.db.get_raw_documents (some (inference.map Prod.snd)) = .ok docs ∧
      zipScoresLoop docs 0 inference = .ok res ∧ eng' = ⟨km'⟩ ∧
      query ≠ "" ∧ 0 < n ∧ tok query ≠ [] ∧ qv ≠ [] := by
  unfold ClusteringSearchEngine.retrieve_relevant_documents at h
  by_cases h1 : query = "" ∨ n ≤ 0
  · rw [if_pos h1] at h
    exact absurd h (by simp)
  · rw [if_neg h1] at h
    push_neg at h1
    by_cases h2 : tok query = []
    · rw [if_pos h2] at h
      exact absurd h (by simp)
    · rw [if_neg h2] at h
      obtain ⟨qv, hqv, h3⟩ := except_bind_ok h
      by_cases h4 : qv = []
      · rw [if_pos h4] at h3
        exact absurd h3 (by simp)
      · rw [if_neg h4] at h3
        obtain ⟨km', hkm', h5⟩ := except_bind_ok h3
        obtain ⟨inference, hinf, h6⟩ := except_bind_ok h5
        obtain ⟨docs, hdocs, h7⟩ := except_bind_ok h6
        obtain ⟨res', hres', h8⟩ := except_bind_ok h7
        have h9 : res' = res ∧ (⟨km'⟩ : ClusteringSearchEngine) = eng' := by
          simp only [Except.ok.injEq, Prod.mk.injEq] at h8
          exact h8
        obtain rfl : res' = res := h9.1
        obtain rfl : (⟨km'⟩ : ClusteringSearchEngine) = eng' := h9.2
        exact ⟨qv, km', inference, docs, hqv, hkm', hinf, hdocs, hres', rfl,
          h1.1, by omega, h2, h4⟩

theorem get_vectors_sublist (db : DocumentVectorDB) (l : List ℕ) :
    (db.get_vectors (some l)).Sublist db.vectors := by
  simp only [DocumentVectorDB.get_vectors]
  by_cases hl : l = []
  · rw [if_pos hl]
  · rw [if_neg hl]
    exact List.filter_sublist _

theorem inferCore_keys {km : KMeans} {q : Vec} {full : List (ℚ × ℕ)}
    (h : km.inferCore q = .ok full) :
    ∃ dvs : List (ℕ × Vec), dvs.Sublist km.db.vectors ∧
      (full.map Prod.snd).Perm (dvs.map Prod.fst) := by
  unfold KMeans.inferCore at h
  obtain ⟨cds, hcds, h2⟩ := except_bind_ok h
  cases hpm : pyMin cds with
  | none =>
    simp only [hpm] at h2
    cases hget : km.clusters[(0 : ℕ)]? with
    | none =>
      rw [hget] at h2
      exact absurd h2 (by simp)
    | some cl =>
      rw [hget] at h2
      obtain ⟨dds, hdds, h3⟩ := except_bind_ok h2
      obtain rfl : full = sortByFst dds := by
        simp only [Except.ok.injEq] at h3
        exact h3.symm
      refine ⟨km.db.get_vectors (some cl.indices), get_vectors_sublist _ _, ?_⟩
      rw [← mapM_dist_spec hdds]
      exact (sortByFst_perm dds).map Prod.snd
  | some m =>
    simp only [hpm] at h2
    cases hget : km.clusters[m.2]? with
    | none =>
      rw [hget] at h2
      exact absurd h2 (by simp)
    | some cl =>
      rw [hget] at h2
      obtain ⟨dds, hdds, h3⟩ := except_bind_ok h2
      obtain rfl : full = sortByFst dds := by
        simp only [Except.ok.injEq] at h3
        exact h3.symm
      refine ⟨km.db.get_vectors (some cl.indices), get_vectors_sublist _ _, ?_⟩
      rw [← mapM_dist_spec hdds]
      exact (sortByFst_perm dds).map Prod.snd

theorem get_raw_documents_ok {db : DocumentVectorDB} {l : List ℕ}
    (hb : ∀ i ∈ l, i < db.documents.length) :
    db.get_raw_documents (some l) =
      .ok (if l = [] then db.documents
        else (dedupFirst l).map (fun i => db.documents.getD i "")) := by
  simp only [DocumentVectorDB.get_raw_documents]
  by_cases hl : l = []
  · rw [if_pos hl, if_pos hl]
  · rw [if_neg hl, if_neg hl]
    exact mapM_lookup_ok _ _ (fun i hi => hb i (mem_dedupFirst.mp hi))

theorem retrieve_any_n {tok : String → List String} {vec : List String → Except String Vec}
    {eng : ClusteringSearchEngine} {query : String} {fuel : ℕ}
    {qv : Vec} {km' : KMeans} {full : List (ℚ × ℕ)}
    (hq : query ≠ "") (ht : tok query ≠ []) (hv : vec (tok query) = .ok qv) (hqv : qv ≠ [])
    (htr : KMeans.train fuel eng.algo = .ok km')
    (hic : km'.inferCore qv = .ok full)
    (hnd : (km'.db.vectors.map Prod.fst).Nodup)
    (hb : ∀ pr ∈ km'.db.vectors, pr.1 < km'.db.documents.length)
    (m : ℤ) (hm : 0 < m) :
    ∃ resm, ClusteringSearchEngine.retrieve_relevant_documents tok vec eng query m fuel
        = .ok (resm, ⟨km'⟩) ∧ resm.length = min m.toNat full.length := by
  obtain ⟨dvs, hsub, hperm⟩ := inferCore_keys hic
  have hndfull : (full.map Prod.snd).Nodup := by
    have h1 : (dvs.map Prod.fst).Nodup := List.Nodup.sublist (hsub.map Prod.fst) hnd
    exact hperm.nodup_iff.mpr h1
  have hbfull : ∀ x ∈ full.map Prod.snd, x < km'.db.documents.length := by
    intro x hx
    have hx' : x ∈ dvs.map Prod.fst := hperm.mem_iff.mp hx
    obtain ⟨pr, hpr, rfl⟩ := List.mem_map.mp hx'
    exact hb pr (hsub.subset hpr)
  have hinfm : km'.infer qv m = .ok (full.take m.toNat) := by
    unfold KMeans.infer
    rw [if_neg (by push_neg; exact ⟨hqv, by omega⟩), except_bind_ok_of hic]
  have hkeys : (full.take m.toNat).map Prod.snd = (full.map Prod.snd).take m.toNat := by
    rw [List.map_take]
  have hndm : ((full.take m.toNat).map Prod.snd).Nodup := by
    rw [hkeys]
    exact List.Nodup.sublist (List.take_sublist _ _) hndfull
  have hbm : ∀ i ∈ (full.take m.toNat).map Prod.snd, i < km'.db.documents.length := by
    intro i hi
    rw [hkeys] at hi
    exact hbfull i (List.mem_of_mem_take hi)
  have hdocs := @get_raw_documents_ok km'.db ((full.take m.toNat).map Prod.snd) hbm
  have hlen_docs : (full.take m.toNat).length ≤
      (if (full.take m.toNat).map Prod.snd = [] then km'.db.documents
        else (dedupFirst ((full.take m.toNat).map Prod.snd)).map
          (fun i => km'.db.documents.getD i "")).length := by
    by_cases hz : (full.take m.toNat).map Prod.snd = []
    · rw [if_pos hz]
      have hnil : full.take m.toNat = [] := List.map_eq_nil_iff.mp hz
      rw [hnil]
      simp
    · rw [if_neg hz]
      rw [List.length_map, dedupFirst_of_nodup hndm, List.length_map]
  obtain ⟨resm, hres, hmapf⟩ := zipScoresLoop_ok
    (if (full.take m.toNat).map Prod.snd = [] then km'.db.documents
      else (dedupFirst ((full.take m.toNat).map Prod.snd)).map
        (fun i => km'.db.documents.getD i ""))
    (full.take m.toNat) 0 (by omega)
  refine ⟨resm, ?_, ?_⟩
  · have hc1 : ¬(query = "" ∨ m ≤ 0) := by
      push_neg
      exact ⟨hq, by omega⟩
    simp only [ClusteringSearchEngine.retrieve_relevant_documents, if_neg hc1, if_neg ht,
      except_bind_ok_of hv, if_neg hqv, except_bind_ok_of htr, except_bind_ok_of hinfm,
      except_bind_ok_of hdocs, except_bind_ok_of hres]
  · have hlr : resm.length = (full.take m.toNat).length := by
      have hcg := congrArg List.length hmapf
      simpa using hcg
    rw [hlr, List.length_take]

theorem convergenceLoop_true_iff {t : ℚ} :
    ∀ {prs : List (Vec × Vec)}, (∀ pr ∈ prs, (calculate_distance pr.1 pr.2).isSome) →
      (convergenceLoop t prs = .ok true ↔
        ∀ pr ∈ prs, ∃ d, calculate_distance pr.1 pr.2 = some d ∧ d ≤ t) := by
  intro prs
  induction prs with
  | nil =>
    intro _
    constructor
    · intro _ pr hpr
      simp at hpr
    · intro _
      rfl
  | cons pr rest ih =>
    intro hdef
    obtain ⟨d, hd⟩ := Option.isSome_iff_exists.mp (hdef pr (List.mem_cons_self _ _))
    rw [convergenceLoop]
    simp only [hd]
    by_cases hgt : d > t
    · rw [if_pos hgt]
      constructor
      · intro hcontra
        exact absurd hcontra (by simp)
      · intro hall
        obtain ⟨d', hd', hled⟩ := hall pr (List.mem_cons_self _ _)
        rw [hd] at hd'
        obtain rfl : d = d' := Option.some_inj.mp hd'
        exact absurd hled (not_le.mpr hgt)
    · rw [if_neg hgt]
      rw [ih (fun x hx => hdef x (List.mem_cons_of_mem _ hx))]
      constructor
      · intro hall pr' hpr'
        rcases List.mem_cons.mp hpr' with hpr1 | hpr2
        · subst hpr1
          exact ⟨d, hd, not_lt.mp hgt⟩
        · exact hall _ hpr2
      · intro hall pr' hpr'
        exact hall pr' (List.mem_cons_of_mem _ hpr')

theorem buildVectors_spec {vectorize : List String → Except String Vec} :
    ∀ {toks : List (List String)} {i : ℕ} {ps : List (ℕ × Vec)},
      buildVectors vectorize i toks = .ok ps →
      ps.length ≤ toks.length ∧
      ∀ pr ∈ ps, ∃ (k : ℕ) (hk : k < toks.length),
        pr.1 = i + k ∧ vectorize (toks.get ⟨k, hk⟩) = .ok pr.2 ∧ pr.2 ≠ [] := by
  intro toks
  induction toks with
  | nil =>
    intro i ps h
    have hps : ps = [] := by
      rw [buildVectors] at h
      simp only [Except.ok.injEq] at h
      exact h.symm
    subst hps
    refine ⟨by simp, ?_⟩
    intro pr hpr
    simp at hpr
  | cons d rest ih =>
    intro i ps h
    rw [buildVectors] at h
    obtain ⟨v, hv, h2⟩ := except_bind_ok h
    obtain ⟨tail, htail, h3⟩ := except_bind_ok h2
    obtain ⟨hlen, hspec⟩ := ih htail
    have hshift : ∀ pr ∈ tail, ∃ (k : ℕ) (hk : k < (d :: rest).length),
        pr.1 = i + k ∧ vectorize ((d :: rest).get ⟨k, hk⟩) = .ok pr.2 ∧ pr.2 ≠ [] := by
      intro pr hpr
      obtain ⟨k, hk, heq, hvec, hne⟩ := hspec pr hpr
      refine ⟨k + 1, by simpa using Nat.succ_lt_succ hk, by omega, ?_, hne⟩
      simpa using hvec
    by_cases hv0 : v = []
    · rw [if_pos hv0] at h3
      obtain rfl : ps = tail := by
        simp only [Except.ok.injEq] at h3
        exact h3.symm
      exact ⟨le_trans hlen (by simp), hshift⟩
    · rw [if_neg hv0] at h3
      obtain rfl : ps = (i, v) :: tail := by
        simp only [Except.ok.injEq] at h3
        exact h3.symm
      refine ⟨by simpa using Nat.succ_le_succ hlen, ?_⟩
      intro pr hpr
      rcases List.mem_cons.mp hpr with hpr1 | hpr2
      · subst hpr1
        exact ⟨0, by simp, by omega, hv, hv0⟩
      · exact hshift pr hpr2

/-- C1: for every trained KMeans state and every valid query vector and
positive n, every (distance, documentIndex) pair returned by `infer` carries a
document index that is a member of the single closest cluster — the one at
minimal centroid distance, ties broken toward the lower cluster index — and
never one from outside it.  (A successfully trained state cannot hold a
zero-member cluster, because the centroid update of `run_single_train_iteration`
rejects the empty mean, so the zero-member case of the claim is vacuous for
trained states.) -/
theorem infer_cluster_restriction (fuel : ℕ) (km km' : KMeans) (q : Vec) (n : ℤ)
    (res : List (ℚ × ℕ))
    (htrain : KMeans.train fuel km = .ok km')
    (hinfer : km'.infer q n = .ok res) :
    ∃ (j : ℕ) (hj : j < km'.clusters.length),
      (∀ (k : ℕ) (hk : k < km'.clusters.length),
        ∃ dj dk,
          calculate_distance q ((km'.clusters.get ⟨j, hj⟩).centroid) = some dj ∧
          calculate_distance q ((km'.clusters.get ⟨k, hk⟩).centroid) = some dk ∧
          (dj < dk ∨ (dj = dk ∧ j ≤ k))) ∧
      ∀ p ∈ res, p.2 ∈ (km'.clusters.get ⟨j, hj⟩).indices := by
  obtain ⟨_, _, _, hne, hinv⟩ := train_spec htrain
  obtain ⟨full, hic, hres, _, _⟩ := infer_spec hinfer
  obtain ⟨j, hj, hmin, hmem, _, _⟩ := inferCore_spec hinv hne hic
  refine ⟨j, hj, hmin, ?_⟩
  intro p hp
  refine hmem p ?_
  rw [hres] at hp
  exact List.mem_of_mem_take hp

theorem infer_cluster_restriction_witness :
    ∃ (j : ℕ) (hj : j < stEx.clusters.length),
      (∀ (k : ℕ) (hk : k < stEx.clusters.length),
        ∃ dj dk,
          calculate_distance [0] ((stEx.clusters.get ⟨j, hj⟩).centroid) = some dj ∧
          calculate_distance [0] ((stEx.clusters.get ⟨k, hk⟩).centroid) = some dk ∧
          (dj < dk ∨ (dj = dk ∧ j ≤ k))) ∧
      ∀ p ∈ [((0 : ℚ), (0 : ℕ))], p.2 ∈ (stEx.clusters.get ⟨j, hj⟩).indices :=
  infer_cluster_restriction 2 kmEx stEx [0] 1 [(0, 0)] (by decide) (by decide)

/-- C2: the claim says a cluster that receives zero members during an
iteration keeps its prior centroid and the iteration completes without error.
The code does the opposite: the empty mean is the empty tuple, which
`set_new_centroid` rejects with `ValueError`.  Concretely, the database
`dbC2` stores the vectors (1.0,), (1.0,), (5.0,); seeding two clusters
duplicates the centroid (1.0,), every vector is assigned to cluster 0, cluster
1 receives zero members, and both the single iteration and the whole training
run raise instead of keeping the centroid. -/
theorem empty_cluster_iteration_raises :
    kmC2seeded.run_single_train_iteration = .error "Invalid input argument" ∧
    KMeans.train 5 kmC2 = .error "Invalid input argument" := by
  constructor
  · decide
  · decide

/-- C3 counterexample: the cluster count is not fixed at construction and does
not stay at `n_clusters` across `retrieve_relevant_documents` calls.  On the
concrete engine `engEx` (one cluster requested), two consecutive retrieval
calls leave the KMeans state holding two clusters, because every `train` call
appends a fresh batch of seed clusters. -/
theorem cluster_count_growth_counterexample :
    engEx.algo.n_clusters = 1 ∧
    (((ClusteringSearchEngine.retrieve_relevant_documents tokC vecC engEx "cat" 1 3).bind
        (fun r1 => ClusteringSearchEngine.retrieve_relevant_documents tokC vecC r1.2 "cat" 1 3)).map
      (fun r2 => r2.2.algo.clusters.length)) = .ok 2 := by
  constructor
  · decide
  · decide

/-- C3 (amended): the constructor creates zero clusters; each `train` call
appends `min n_clusters |stored vectors|` fresh seed clusters to the existing
list, and the iterative phase never changes the count — so after a successful
training run the cluster count is the old count plus that minimum, not a
constant `n_clusters`. -/
theorem train_cluster_count (fuel : ℕ) (km km' : KMeans)
    (h : KMeans.train fuel km = .ok km') :
    km'.clusters.length =
      km.clusters.length + min km.n_clusters (km.db.get_vectors none).length :=
  (train_spec h).2.2.1

theorem train_cluster_count_witness :
    stEx.clusters.length =
      kmEx.clusters.length + min kmEx.n_clusters (kmEx.db.get_vectors none).length :=
  train_cluster_count 2 kmEx stEx (by decide)

/-- C4: the convergence check raises an input error on an empty new-cluster
list and on the invalid (zero, Python-falsy) threshold; otherwise, whenever
every zipped old/new centroid pair has a defined distance, it answers `True`
exactly when each such distance is at most the threshold, comparing
cluster-by-cluster in list order. -/
theorem convergence_check_spec (km : KMeans) (ncs : List ClusterDTO) (t : ℚ) :
    (ncs = [] → km.is_convergence_reached ncs t = .error "Invalid input argument") ∧
    (t = 0 → km.is_convergence_reached ncs t = .error "Invalid input argument") ∧
    (ncs ≠ [] → t ≠ 0 →
      (∀ pr ∈ (km.clusters.map ClusterDTO.centroid).zip (ncs.map ClusterDTO.centroid),
        (calculate_distance pr.1 pr.2).isSome) →
      (km.is_convergence_reached ncs t = .ok true ↔
        ∀ pr ∈ (km.clusters.map ClusterDTO.centroid).zip (ncs.map ClusterDTO.centroid),
          ∃ d, calculate_distance pr.1 pr.2 = some d ∧ d ≤ t)) := by
  refine ⟨?_, ?_, ?_⟩
  · intro hne
    unfold KMeans.is_convergence_reached
    rw [if_pos (Or.inl hne)]
  · intro ht
    unfold KMeans.is_convergence_reached
    rw [if_pos (Or.inr ht)]
  · intro hne ht hdef
    unfold KMeans.is_convergence_reached
    rw [if_neg (by push_neg; exact ⟨hne, ht⟩)]
    exact convergenceLoop_true_iff hdef

theorem convergence_check_spec_witness :
    stEx.is_convergence_reached [] (1 / 2) = .error "Invalid input argument" ∧
    stEx.is_convergence_reached [⟨[1], []⟩] 0 = .error "Invalid input argument" ∧
    stEx.is_convergence_reached [⟨[1], []⟩] (1 / 2) = .ok true := by
  refine ⟨(convergence_check_spec stEx [] (1 / 2)).1 rfl,
    (convergence_check_spec stEx [⟨[1], []⟩] 0).2.1 rfl, ?_⟩
  refine ((convergence_check_spec stEx [⟨[1], []⟩] (1 / 2)).2.2 (by decide) (by decide)
    (by decide)).mpr ?_
  intro pr hpr
  have hzip : (stEx.clusters.map ClusterDTO.centroid).zip
      (([⟨[1], []⟩] : List ClusterDTO).map ClusterDTO.centroid) = [([1], [1])] := by decide
  rw [hzip, List.mem_singleton] at hpr
  subst hpr
  exact ⟨0, by decide, by decide⟩

/-- C5: during a training iteration every stored vector's document index is
assigned to the cluster whose centroid is at minimum distance, an exact tie
being broken in favour of the lowest cluster index: the chosen cluster `j`
satisfies the lexicographic minimality property against every cluster, and
after the iteration the vector's index is a member of cluster `j`.  (The
source adds `vectors.index(vector)`, the position of the pair's first
occurrence, which equals the position when the stored pair list has no
duplicates.) -/
theorem assignment_min_distance (km km' : KMeans)
    (h : km.run_single_train_iteration = .ok km')
    (hnd : (km.db.get_vectors none).Nodup)
    (p : ℕ) (pr : ℕ × Vec) (hp : (km.db.get_vectors none)[p]? = some pr)
    (j : ℕ) (hj : assignCluster (km.clusters.map ClusterDTO.centroid) pr.2 = .ok j) :
    (∃ hjlen : j < km.clusters.length,
      ∀ (k : ℕ) (hk : k < km.clusters.length),
        ∃ dj dk,
          calculate_distance pr.2 ((km.clusters.get ⟨j, hjlen⟩).centroid) = some dj ∧
          calculate_distance pr.2 ((km.clusters.get ⟨k, hk⟩).centroid) = some dk ∧
          (dj < dk ∨ (dj = dk ∧ j ≤ k))) ∧
    ∃ c', km'.clusters[j]? = some c' ∧ p ∈ c'.indices := by
  constructor
  · obtain ⟨hj', hmin⟩ := assignCluster_spec hj
    rw [List.length_map] at hj'
    refine ⟨hj', ?_⟩
    intro k hk
    obtain ⟨dj, dk, hdj, hdk, hcmp⟩ := hmin k (by rw [List.length_map]; exact hk)
    refine ⟨dj, dk, ?_, ?_, hcmp⟩
    · rw [List.get_eq_getElem] at hdj ⊢
      rw [List.getElem_map] at hdj
      exact hdj
    · rw [List.get_eq_getElem] at hdk ⊢
      rw [List.getElem_map] at hdk
      exact hdk
  · obtain ⟨assigned, ha, hu, _, _⟩ := run_iteration_parts h
    obtain ⟨_, _, hassign⟩ := assignLoop_spec ha
    obtain ⟨c'', hc'', hmem⟩ := hassign p pr hp j hj
    obtain ⟨_, hspec2⟩ := updateCentroids_spec hu
    obtain ⟨c3, hc3, hind, _, _⟩ := hspec2 j c'' hc''
    refine ⟨c3, hc3, ?_⟩
    rw [hind]
    rw [idxOfFirst_of_nodup hnd hp] at hmem
    exact hmem

theorem assignment_min_distance_witness :
    (∃ hjlen : 1 < kmTwo.clusters.length,
      ∀ (k : ℕ) (hk : k < kmTwo.clusters.length),
        ∃ dj dk,
          calculate_distance [0] ((kmTwo.clusters.get ⟨1, hjlen⟩).centroid) = some dj ∧
          calculate_distance [0] ((kmTwo.clusters.get ⟨k, hk⟩).centroid) = some dk ∧
          (dj < dk ∨ (dj = dk ∧ 1 ≤ k))) ∧
    ∃ c', (⟨[⟨[2], [1]⟩, ⟨[0], [0]⟩], dbEx, 1⟩ : KMeans).clusters[(1 : ℕ)]? = some c' ∧
      0 ∈ c'.indices :=
  assignment_min_distance kmTwo ⟨[⟨[2], [1]⟩, ⟨[0], [0]⟩], dbEx, 1⟩ (by decide) (by decide)
    0 (0, [0]) (by decide) 1 (by decide)

/-- C6: for every valid query and positive n, the clustering retrieval result
is a list of (score, document text) pairs of length at most n, sorted
ascending by score; and for any positive requested count — in particular one
exceeding the number of candidate documents of the chosen cluster — the call
succeeds and returns `min requested available` pairs, never an error.  The
hypotheses ask the database for distinct keys that index real documents, as
every database built by `put_corpus` has. -/
theorem retrieve_sorted_bounded (tok : String → List String)
    (vec : List String → Except String Vec) (eng : ClusteringSearchEngine)
    (query : String) (n : ℤ) (fuel : ℕ) (res : List (ℚ × String))
    (eng' : ClusteringSearchEngine)
    (hnd : (eng.algo.db.vectors.map Prod.fst).Nodup)
    (hb : ∀ pr ∈ eng.algo.db.vectors, pr.1 < eng.algo.db.documents.length)
    (h : ClusteringSearchEngine.retrieve_relevant_documents tok vec eng query n fuel
        = .ok (res, eng')) :
    res.length ≤ n.toNat ∧
    List.Pairwise (fun a b : ℚ × String => a.1 ≤ b.1) res ∧
    ∃ qv km' full,
      vec (tok query) = .ok qv ∧ KMeans.train fuel eng.algo = .ok km' ∧
      km'.inferCore qv = .ok full ∧ res.length = min n.toNat full.length ∧
      ∀ m : ℤ, 0 < m →
        ∃ resm, ClusteringSearchEngine.retrieve_relevant_documents tok vec eng query m fuel
            = .ok (resm, ⟨km'⟩) ∧ resm.length = min m.toNat full.length := by
  obtain ⟨qv, km', inference, docs, hqv, htr, hinf, hdocs, hzip, heng, hq, hn, ht, hqvne⟩ :=
    retrieve_ok_parts h
  obtain ⟨full, hic, hinfeq, _, _⟩ := infer_spec hinf
  obtain ⟨hdb, _, _, hne, hinv⟩ := train_spec htr
  obtain ⟨j, hj, _, _, hpw, _⟩ := inferCore_spec hinv hne hic
  have hmapf : res.map Prod.fst = inference.map Prod.fst := zipScoresLoop_spec hzip
  have hreslen : res.length = inference.length := by
    have hcg := congrArg List.length hmapf
    simpa using hcg
  have hinflen : inference.length = min n.toNat full.length := by
    rw [hinfeq, List.length_take]
  refine ⟨?_, ?_, qv, km', full, hqv, htr, hic, ?_, ?_⟩
  · rw [hreslen, hinflen]
    exact Nat.min_le_left _ _
  · have hpwinf : List.Pairwise (fun a b : ℚ × ℕ => a.1 ≤ b.1) inference := by
      rw [hinfeq]
      exact List.Pairwise.sublist (List.take_sublist _ _) hpw
    have h1 : List.Pairwise (fun a b : ℚ => a ≤ b) (res.map Prod.fst) := by
      rw [hmapf]
      exact List.pairwise_map.mpr hpwinf
    exact List.pairwise_map.mp h1
  · rw [hreslen, hinflen]
  · intro m hm
    have hnd' : (km'.db.vectors.map Prod.fst).Nodup := by
      rw [hdb]
      exact hnd
    have hb' : ∀ pr ∈ km'.db.vectors, pr.1 < km'.db.documents.length := by
      rw [hdb]
      exact hb
    exact retrieve_any_n hq ht hqv hqvne htr hic hnd' hb' m hm

theorem retrieve_sorted_bounded_witness :
    ([((0 : ℚ), "a"), (4, "b")] : List (ℚ × String)).length ≤ (5 : ℤ).toNat ∧
    List.Pairwise (fun a b : ℚ × String => a.1 ≤ b.1) [((0 : ℚ), "a"), (4, "b")] ∧
    ∃ qv km' full,
      vecC (tokC "cat") = .ok qv ∧ KMeans.train 3 engEx.algo = .ok km' ∧
      km'.inferCore qv = .ok full ∧
      ([((0 : ℚ), "a"), (4, "b")] : List (ℚ × String)).length = min (5 : ℤ).toNat full.length ∧
      ∀ m : ℤ, 0 < m →
        ∃ resm, ClusteringSearchEngine.retrieve_relevant_documents tokC vecC engEx "cat" m 3
            = .ok (resm, ⟨km'⟩) ∧ resm.length = min m.toNat full.length :=
  retrieve_sorted_bounded tokC vecC engEx "cat" 5 3 [(0, "a"), (4, "b")] ⟨stEx⟩
    (by decide) (by decide) (by decide)

/-- C7: after every successful ingestion of a non-empty corpus into a fresh
database, at most as many vectors are stored as documents were kept, and every
key of the vector mapping indexes a kept document at the identical position —
the stored vector is exactly the (non-empty) vectorization of that document's
tokenization. -/
theorem put_corpus_alignment (tok : String → List String)
    (vec : List String → Except String Vec) (db db' : DocumentVectorDB)
    (corpus : List String) (hdocs : db.documents = [])
    (h : DocumentVectorDB.put_corpus tok vec db corpus = .ok db') :
    db'.vectors.length ≤ db'.documents.length ∧
    ∀ pr ∈ db'.vectors, ∃ d, db'.documents[pr.1]? = some d ∧
      vec (tok d) = .ok pr.2 ∧ pr.2 ≠ [] := by
  unfold DocumentVectorDB.put_corpus at h
  by_cases h1 : corpus = []
  · rw [if_pos h1] at h
    exact absurd h (by simp)
  · rw [if_neg h1] at h
    by_cases h2 : (corpus.filter (fun d => !(tok d).isEmpty)).map tok = []
    · rw [if_pos h2] at h
      exact absurd h (by simp)
    · rw [if_neg h2] at h
      obtain ⟨vs, hvs, h3⟩ := except_bind_ok h
      obtain rfl : db' =
          ⟨vs, db.documents ++ corpus.filter (fun d => !(tok d).isEmpty)⟩ := by
        simp only [Except.ok.injEq] at h3
        exact h3.symm
      obtain ⟨hlen, hspec⟩ := buildVectors_spec hvs
      constructor
      · simp only [hdocs, List.nil_append]
        calc vs.length ≤ ((corpus.filter (fun d => !(tok d).isEmpty)).map tok).length := hlen
          _ = (corpus.filter (fun d => !(tok d).isEmpty)).length := by rw [List.length_map]
      · intro pr hpr
        obtain ⟨k, hk, hkey, hvec, hne⟩ := hspec pr hpr
        rw [List.length_map] at hk
        have hkey' : pr.1 = k := by omega
        refine ⟨(corpus.filter (fun d => !(tok d).isEmpty)).get ⟨k, hk⟩, ?_, ?_, hne⟩
        · show (db.documents ++ corpus.filter (fun d => !(tok d).isEmpty))[pr.1]? = _
          simp only [hdocs, List.nil_append, hkey']
          rw [List.get_eq_getElem]
          exact List.getElem?_eq_getElem hk
        · rw [List.get_eq_getElem] at hvec
          rw [List.getElem_map] at hvec
          rw [List.get_eq_getElem]
          exact hvec

theorem put_corpus_alignment_witness :
    (⟨[(0, [0])], ["a"]⟩ : DocumentVectorDB).vectors.length ≤
      (⟨[(0, [0])], ["a"]⟩ : DocumentVectorDB).documents.length ∧
    ∀ pr ∈ (⟨[(0, [0])], ["a"]⟩ : DocumentVectorDB).vectors,
      ∃ d, (⟨[(0, [0])], ["a"]⟩ : DocumentVectorDB).documents[pr.1]? = some d ∧
        vecC (tokC d) = .ok pr.2 ∧ pr.2 ≠ [] :=
  put_corpus_alignment tokC vecC dbEmpty ⟨[(0, [0])], ["a"]⟩ ["a", ""]
    (by decide) (by decide)

/-- C8: `get_raw_documents` is pure, so calling it twice with the same filter
returns identical output; with no filter it returns the full document list;
and with a filter it returns the documents at the first-occurrence
deduplication of the filter — a duplicate-free sublist of the filter (so the
input order is preserved and never re-sorted) containing exactly the filter's
indices. -/
theorem get_raw_documents_spec (db : DocumentVectorDB) (idx : List ℕ) :
    db.get_raw_documents (some idx) = db.get_raw_documents (some idx) ∧
    db.get_raw_documents none = .ok db.documents ∧
    (dedupFirst idx).Sublist idx ∧ (dedupFirst idx).Nodup ∧
    (∀ x, x ∈ dedupFirst idx ↔ x ∈ idx) ∧
    (idx ≠ [] → (∀ i ∈ idx, i < db.documents.length) →
      db.get_raw_documents (some idx) =
        .ok ((dedupFirst idx).map (fun i => db.documents.getD i ""))) := by
  refine ⟨rfl, rfl, dedupFirst_sublist idx, dedupFirst_nodup idx,
    fun x => mem_dedupFirst, ?_⟩
  intro hne hb
  rw [get_raw_documents_ok hb, if_neg hne]

theorem get_raw_documents_spec_witness :
    dbEx.get_raw_documents (some [1, 0, 1]) =
      .ok ((dedupFirst [1, 0, 1]).map (fun i => dbEx.documents.getD i "")) :=
  (get_raw_documents_spec dbEx [1, 0, 1]).2.2.2.2.2 (by decide) (by decide)

/-- C9: the clustering retrieval rejects an empty query, a non-positive
neighbour count, a query whose tokenization is empty, and a query whose
vectorization is empty, with an input error in every case; no result is
returned.  (A non-string query is a Python type error outside the embedding.) -/
theorem retrieve_rejects_invalid (tok : String → List String)
    (vec : List String → Except String Vec) (eng : ClusteringSearchEngine)
    (query : String) (n : ℤ) (fuel : ℕ)
    (h : query = "" ∨ n ≤ 0 ∨ tok query = [] ∨ vec (tok query) = .ok []) :
    ∃ e, ClusteringSearchEngine.retrieve_relevant_documents tok vec eng query n fuel
        = .error e := by
  unfold ClusteringSearchEngine.retrieve_relevant_documents
  by_cases h1 : query = "" ∨ n ≤ 0
  · rw [if_pos h1]
    exact ⟨_, rfl⟩
  · rw [if_neg h1]
    push_neg at h1
    by_cases h2 : tok query = []
    · rw [if_pos h2]
      exact ⟨_, rfl⟩
    · rw [if_neg h2]
      have hv : vec (tok query) = .ok [] := by
        rcases h with h | h | h | h
        · exact absurd h h1.1
        · exact absurd h (by have := h1.2; omega)
        · exact absurd h h2
        · exact h
      rw [except_bind_ok_of hv, if_pos rfl]
      exact ⟨_, rfl⟩

theorem retrieve_rejects_invalid_witness :
    ∃ e, ClusteringSearchEngine.retrieve_relevant_documents tokC vecC engEx "" 1 3
        = .error e :=
  retrieve_rejects_invalid tokC vecC engEx "" 1 3 (Or.inl rfl)

/-- C10: an empty index filter is never treated as "select nothing": for every
database state, `get_vectors` with the empty list equals `get_vectors` with no
filter — the complete stored (index, vector) list — and `get_raw_documents`
with the empty tuple equals the unfiltered call, the full document list. -/
theorem empty_filter_full_result (db : DocumentVectorDB) :
    db.get_vectors (some []) = db.get_vectors none ∧
    db.get_vectors none = db.vectors ∧
    db.get_raw_documents (some []) = db.get_raw_documents none ∧
    db.get_raw_documents none = .ok db.documents := by
  refine ⟨?_, rfl, ?_, rfl⟩
  · simp [DocumentVectorDB.get_vectors]
  · simp [DocumentVectorDB.get_raw_documents]
